import Mathlib

/-!
Verification of the density-matrix simulator (`src/density_matrix.rs`).

The `DensityMatrix` operations are translated from the source file.  The
tensor engine (`tensordot`, `moveaxis`), the operator catalogue, and the
bit/approximation helpers live outside the provided sources, so they are
modelled from the specification (each such definition is marked
`Modelled from the spec:` in its doc comment).  Complex `f64` values are
modelled exactly with rational real and imaginary parts.
-/

namespace DmSimu

/-- Complex numbers (`num_complex::Complex<f64>`), modelled with exact
rational real and imaginary parts. -/
structure Cplx where
  re : ℚ
  im : ℚ
deriving DecidableEq, Repr

instance : Zero Cplx := ⟨⟨0, 0⟩⟩
instance : One Cplx := ⟨⟨1, 0⟩⟩

def Cplx.add (a b : Cplx) : Cplx := ⟨a.re + b.re, a.im + b.im⟩

instance : Add Cplx := ⟨Cplx.add⟩

def Cplx.mul (a b : Cplx) : Cplx :=
  ⟨a.re * b.re - a.im * b.im, a.re * b.im + a.im * b.re⟩

instance : Mul Cplx := ⟨Cplx.mul⟩

def Cplx.neg (a : Cplx) : Cplx := ⟨-a.re, -a.im⟩

instance : Neg Cplx := ⟨Cplx.neg⟩

def Cplx.sub (a b : Cplx) : Cplx := ⟨a.re - b.re, a.im - b.im⟩

instance : Sub Cplx := ⟨Cplx.sub⟩

/-- Complex conjugate (`Complex::conj`). -/
def Cplx.conj (a : Cplx) : Cplx := ⟨a.re, -a.im⟩

/-- Squared modulus of a complex number. -/
def Cplx.normSq (a : Cplx) : ℚ := a.re * a.re + a.im * a.im

/-- Complex division (`Complex<f64>` division). -/
def Cplx.div (a b : Cplx) : Cplx :=
  ⟨(a.re * b.re + a.im * b.im) / b.normSq, (a.im * b.re - a.re * b.im) / b.normSq⟩

instance : Div Cplx := ⟨Cplx.div⟩

/-- Embedding of a natural number as a complex value
(`Complex::new(n as f64, 0.)`). -/
def Cplx.ofNat (n : ℕ) : Cplx := ⟨(n : ℚ), 0⟩

/-- Embedding of an integer as a complex value (`t as f64`). -/
def Cplx.ofInt (t : ℤ) : Cplx := ⟨(t : ℚ), 0⟩

/-- Modelled from the spec: the approximate-equality predicate over complex
numbers given an absolute tolerance (`tools::complex_approx_eq`): the two
values are within complex modulus `tol` of each other, expressed exactly as
a comparison of the squared modulus against `tol * tol`. -/
def complex_approx_eq (a b : Cplx) (tol : ℚ) : Bool :=
  decide ((a - b).normSq ≤ tol * tol)

/-- Modelled from the spec: `tools::bitwise_int_to_bin_vec`, the big-endian
bit-vector decomposition of a flat index over `n` bits (most significant bit
first). -/
def bitwise_int_to_bin_vec : ℕ → ℕ → List ℕ
  | _, 0 => []
  | i, n + 1 => bitwise_int_to_bin_vec (i / 2) n ++ [i % 2]

/-- Modelled from the spec: the tensor data model — a dense multi-axis
complex array with a flat row-major data buffer (last axis varies
fastest). -/
structure Tensor where
  data : List Cplx
  shape : List ℕ
deriving DecidableEq, Repr

/-- Row-major flat index of a multi-index (mixed-radix encoding, last axis
varies fastest). -/
def flatIndex (shape idx : List ℕ) : ℕ :=
  (shape.zip idx).foldl (fun a p => a * p.1 + p.2) 0

/-- Modelled from the spec: `Tensor::new`, a zero-filled tensor of the
given shape. -/
def Tensor.new (shape : List ℕ) : Tensor :=
  ⟨List.replicate shape.prod 0, shape⟩

/-- Modelled from the spec: `Tensor::from_vec`, wrapping a flat buffer with
a shape. -/
def Tensor.from_vec (d : List Cplx) (shape : List ℕ) : Tensor := ⟨d, shape⟩

/-- Modelled from the spec: element access by multi-index. -/
def Tensor.get (t : Tensor) (idx : List ℕ) : Cplx :=
  t.data.getD (flatIndex t.shape idx) 0

/-- Modelled from the spec: element update by multi-index. -/
def Tensor.set (t : Tensor) (idx : List ℕ) (v : Cplx) : Tensor :=
  ⟨t.data.set (flatIndex t.shape idx) v, t.shape⟩

/-- All multi-indices of a shape, in row-major order (first axis slowest). -/
def allIdx : List ℕ → List (List ℕ)
  | [] => [[]]
  | d :: rest => ((List.range d).map (fun i => (allIdx rest).map (fun t => i :: t))).flatten

/-- Sum of a list of complex numbers. -/
def sumC (l : List Cplx) : Cplx := l.foldl (fun a b => a + b) 0

/-- Rebuild a full multi-index of length `rank` from values at the free
positions `freePos` and values at the contracted positions `conPos`. -/
def assemble (rank : ℕ) (freePos freeVal conPos conVal : List ℕ) : List ℕ :=
  (List.range rank).map (fun p =>
    if conPos.contains p then conVal.getD (conPos.indexOf p) 0
    else freeVal.getD (freePos.indexOf p) 0)

/-- Modelled from the spec: `Tensor::tensordot` — contracts the axes of
`a` listed in `axA` against the correspondingly-ordered axes of `b` listed
in `axB`.  The result's axes are the non-contracted axes of `a` in their
original relative order followed by the non-contracted axes of `b` in their
original relative order.  Axis lists of unequal length, out-of-range or
repeated axes, or mismatched dimensions are fatal (`none`). -/
def Tensor.tensordot (a b : Tensor) (axA axB : List ℕ) : Option Tensor :=
  if axA.length == axB.length
      && axA.all (fun x => x < a.shape.length)
      && axB.all (fun x => x < b.shape.length)
      && decide axA.Nodup && decide axB.Nodup
      && (axA.zip axB).all (fun p => a.shape.getD p.1 0 == b.shape.getD p.2 0)
  then
    let freeA := (List.range a.shape.length).filter (fun i => !(axA.contains i))
    let freeB := (List.range b.shape.length).filter (fun i => !(axB.contains i))
    let outShape := freeA.map (fun i => a.shape.getD i 0)
      ++ freeB.map (fun i => b.shape.getD i 0)
    let conShape := axA.map (fun i => a.shape.getD i 0)
    some ⟨(allIdx outShape).map (fun oi =>
        sumC ((allIdx conShape).map (fun k =>
          a.get (assemble a.shape.length freeA (oi.take freeA.length) axA k) *
          b.get (assemble b.shape.length freeB (oi.drop freeA.length) axB k)))),
      outShape⟩
  else none

/-- Normalize a possibly negative axis position against a rank, as the
engine's callers require (`-i` stands for `rank - i`); out of range is
fatal. -/
def normAxis (rank : ℕ) (i : ℤ) : Option ℕ :=
  if 0 ≤ i ∧ i < (rank : ℤ) then some i.toNat
  else if -(rank : ℤ) ≤ i ∧ i < 0 then some ((rank : ℤ) + i).toNat
  else none

/-- The permutation (new position → old axis) realized by `moveaxis`:
destination positions receive the corresponding source axes, the remaining
axes keep their relative order and slide into the remaining positions. -/
def buildPerm (rank : ℕ) (s d rest : List ℕ) : List ℕ :=
  ((List.range rank).foldl (fun acc p =>
    if d.contains p then (acc.1 ++ [s.getD (d.indexOf p) 0], acc.2)
    else match acc.2 with
      | r :: rs => (acc.1 ++ [r], rs)
      | [] => (acc.1, ([] : List ℕ))) (([] : List ℕ), rest)).1

/-- Modelled from the spec: `Tensor::moveaxis` — reinterpret the data under
a new axis order sending each axis at a position in `src` to the
corresponding position in `dst`; unmentioned axes keep their relative
order.  Mismatched lengths, repeated axes, or out-of-range positions are
fatal (`none`). -/
def Tensor.moveaxis (t : Tensor) (src dst : List ℤ) : Option Tensor :=
  let rank := t.shape.length
  match src.mapM (normAxis rank), dst.mapM (normAxis rank) with
  | some s, some d =>
    if s.length == d.length && decide s.Nodup && decide d.Nodup then
      let rest := (List.range rank).filter (fun i => !(s.contains i))
      let perm := buildPerm rank s d rest
      let newShape := perm.map (fun i => t.shape.getD i 0)
      some ⟨(allIdx newShape).map (fun ni =>
          t.get ((List.range rank).map (fun a => ni.getD (perm.indexOf a) 0))),
        newShape⟩
    else none
  | _, _ => none

/-- Modelled from the spec: the one-qubit gate names of the external
operator catalogue, restricted to the gates with rational-entry matrices
(the irrational `H` matrix is not representable over ℚ and is not needed by
any claim). -/
inductive OneQubitOp
  | I
  | X
  | Y
  | Z
deriving DecidableEq, Repr

/-- Modelled from the spec: the two-qubit gate names of the external
operator catalogue. -/
inductive TwoQubitsOp
  | CX
  | CZ
  | SWAP
deriving DecidableEq, Repr

/-- Modelled from the spec: an operator of the external catalogue — a fixed
complex matrix stored flat in row-major order together with its side
length. -/
structure Operator where
  data : List Cplx
  dim : ℕ
deriving DecidableEq, Repr

/-- Modelled from the spec: the conjugate transpose of an `n × n` matrix
stored flat in row-major order. -/
def transconjData (n : ℕ) (d : List Cplx) : List Cplx :=
  ((List.range n).map (fun i =>
    (List.range n).map (fun j => Cplx.conj (d.getD (j * n + i) 0)))).flatten

/-- Modelled from the spec: `Operator::transconj`. -/
def Operator.transconj (op : Operator) : Operator :=
  ⟨transconjData op.dim op.data, op.dim⟩

/-- Modelled from the spec: `Operator::one_qubit`, the fixed one-qubit gate
matrices (standard Pauli/identity matrices). -/
def Operator.one_qubit : OneQubitOp → Operator
  | OneQubitOp.I => ⟨[1, 0, 0, 1], 2⟩
  | OneQubitOp.X => ⟨[0, 1, 1, 0], 2⟩
  | OneQubitOp.Y => ⟨[0, ⟨0, -1⟩, ⟨0, 1⟩, 0], 2⟩
  | OneQubitOp.Z => ⟨[1, 0, 0, ⟨-1, 0⟩], 2⟩

/-- Modelled from the spec: `Operator::two_qubits`, the fixed two-qubit
gate matrices in the big-endian basis order `00, 01, 10, 11` with the first
named qubit as control. -/
def Operator.two_qubits : TwoQubitsOp → Operator
  | TwoQubitsOp.CX =>
      ⟨[1, 0, 0, 0,
        0, 1, 0, 0,
        0, 0, 0, 1,
        0, 0, 1, 0], 4⟩
  | TwoQubitsOp.CZ =>
      ⟨[1, 0, 0, 0,
        0, 1, 0, 0,
        0, 0, 1, 0,
        0, 0, 0, ⟨-1, 0⟩], 4⟩
  | TwoQubitsOp.SWAP =>
      ⟨[1, 0, 0, 0,
        0, 0, 1, 0,
        0, 1, 0, 0,
        0, 0, 0, 1], 4⟩

/-- The initial states accepted by `DensityMatrix::new`
(`density_matrix.rs`, `State`). -/
inductive State
  | ZERO
  | PLUS
deriving DecidableEq, Repr

/-- 1D representation of a `size * size` density matrix
(`density_matrix.rs`, `DensityMatrix`). -/
structure DensityMatrix where
  data : List Cplx
  size : ℕ
  nqubits : ℕ
deriving DecidableEq, Repr

/-- `DensityMatrix::new` (`density_matrix.rs`): `PLUS` fills the matrix
with ones and divides every entry by `size`; `ZERO` zero-fills and sets the
flat index 0 to one; `none` zero-fills. -/
def DensityMatrix.new (nqubits : ℕ) (initial_state : Option State) : DensityMatrix :=
  let size := 2 ^ nqubits
  match initial_state with
  | some State.PLUS =>
      ⟨(List.replicate (size * size) (1 : Cplx)).map (fun n => n / Cplx.ofNat size),
        size, nqubits⟩
  | some State.ZERO =>
      ⟨(List.replicate (size * size) (0 : Cplx)).set 0 1, size, nqubits⟩
  | none => ⟨List.replicate (size * size) (0 : Cplx), size, nqubits⟩

/-- Rust `usize::is_power_of_two` (exactly one set bit; `0` is not a power
of two). -/
def isPowerOfTwo (n : ℕ) : Bool :=
  n != 0 && decide (n = 2 ^ Nat.log 2 n)

/-- The nested fill loop of `DensityMatrix::from_statevec`: for each
`i, j < size`, set flat position `i * size + j` to
`statevec[i] * statevec[j].conj()`. -/
def outerProductData (sv : List Cplx) (size : ℕ) : List Cplx :=
  (List.range size).foldl (fun d i =>
    (List.range size).foldl (fun d j =>
      d.set (i * size + j) (sv.getD i 0 * Cplx.conj (sv.getD j 0))) d)
    (List.replicate (size * size) (0 : Cplx))

/-- `DensityMatrix::from_statevec` (`density_matrix.rs`). -/
def DensityMatrix.from_statevec (statevec : List Cplx) : Except String DensityMatrix :=
  let len := statevec.length
  if isPowerOfTwo len then
    Except.ok ⟨outerProductData statevec len, len, Nat.log 2 len⟩
  else
    Except.error "The size of the statevec is not a power of two"

/-- `DensityMatrix::get` (`density_matrix.rs`): flat access at
`i * size + j`; the out-of-bounds panic of the slice indexing is modelled
as `none`. -/
def DensityMatrix.get (dm : DensityMatrix) (i j : ℕ) : Option Cplx :=
  if i * dm.size + j < dm.data.length then
    some (dm.data.getD (i * dm.size + j) 0)
  else none

/-- `DensityMatrix::set` (`density_matrix.rs`): flat update at
`i * size + j`; the out-of-bounds panic is modelled as `none`. -/
def DensityMatrix.set (dm : DensityMatrix) (i j : ℕ) (value : Cplx) :
    Option DensityMatrix :=
  if i * dm.size + j < dm.data.length then
    some ⟨dm.data.set (i * dm.size + j) value, dm.size, dm.nqubits⟩
  else none

/-- `DensityMatrix::to_tensor` (`density_matrix.rs`): write every flat
entry into a `[2; 2 * nqubits]`-shaped tensor at the big-endian bit
decomposition of its flat index. -/
def DensityMatrix.to_tensor (dm : DensityMatrix) : Tensor :=
  (List.range (dm.size * dm.size)).foldl
    (fun t i => t.set (bitwise_int_to_bin_vec i (dm.nqubits * 2)) (dm.data.getD i 0))
    (Tensor.new (List.replicate (2 * dm.nqubits) 2))

/-- Modelled from the spec: `tools::tensor_to_dm`, flattening a
`[2; 2 * n]`-shaped tensor back into a density matrix with `n` qubits. -/
def tensor_to_dm (t : Tensor) : DensityMatrix :=
  ⟨t.data, 2 ^ (t.shape.length / 2), t.shape.length / 2⟩

/-- The tolerance used by `DensityMatrix::trace`. -/
def TOLERANCE : ℚ := 1 / 10 ^ 10

/-- `DensityMatrix::trace` (`density_matrix.rs`): sum the diagonal entries
and succeed with `Ok(1)` exactly when the sum is approximately one. -/
def DensityMatrix.trace (dm : DensityMatrix) : Except String ℤ :=
  let t := (List.range dm.size).foldl
    (fun acc i => acc + dm.data.getD (i * dm.size + i) 0) 0
  if complex_approx_eq t 1 TOLERANCE then Except.ok 1
  else Except.error "The sum over the diagonal elements do not make 1"

/-- `DensityMatrix::normalize` (`density_matrix.rs`): `trace().unwrap()`
(a panic on a failed trace check, modelled as `none`) followed by dividing
every entry by the unwrapped value cast to a float. -/
def DensityMatrix.normalize (dm : DensityMatrix) : Option DensityMatrix :=
  match dm.trace with
  | Except.error _ => none
  | Except.ok t =>
      some ⟨dm.data.map (fun c => c / Cplx.ofInt t), dm.size, dm.nqubits⟩

/-- `DensityMatrix::evolve_single` (`density_matrix.rs`): contract the gate
against row axis `index`, contract the adjoint against the column axis at
`index + nqubits`, then move the prepended axis to `index` and the appended
axis to `index + nqubits`.  Each `unwrap` panic is modelled as `none`. -/
def DensityMatrix.evolve_single (dm : DensityMatrix) (op : OneQubitOp)
    (index : ℕ) : Option DensityMatrix :=
  let op := Operator.one_qubit op
  let op_tensor := Tensor.from_vec op.data [2, 2]
  let rho_tensor := dm.to_tensor
  match op_tensor.tensordot rho_tensor [1] [index] with
  | none => none
  | some r1 =>
    match r1.tensordot (Tensor.from_vec op.transconj.data [2, 2])
        [index + dm.nqubits] [0] with
    | none => none
    | some r2 =>
      match r2.moveaxis [0, ((r2.shape.length - 1 : ℕ) : ℤ)]
          [(index : ℤ), ((index + dm.nqubits : ℕ) : ℤ)] with
      | none => none
      | some r3 => some (tensor_to_dm r3)

/-- `DensityMatrix::evolve` (`density_matrix.rs`): contract the two-qubit
gate against the row axes named by `indices`, contract the adjoint against
the axes `indices[i] + nqb_op` (with `nqb_op = 2`), then move the block of
prepended axes to `indices` and the block of appended axes (addressed
negatively from the end) to `indices[i] + nqb_op` in reverse order.  Each
`unwrap` panic is modelled as `none`. -/
def DensityMatrix.evolve (dm : DensityMatrix) (op : TwoQubitsOp)
    (indices : List ℕ) : Option DensityMatrix :=
  let nqb_op := 2
  let op := Operator.two_qubits op
  let op_tensor := Tensor.from_vec op.data [2, 2, 2, 2]
  let rho_tensor := dm.to_tensor
  match op_tensor.tensordot rho_tensor
      ((List.range indices.length).map (fun i => nqb_op + i)) indices with
  | none => none
  | some r1 =>
    match r1.tensordot (Tensor.from_vec op.transconj.data [2, 2, 2, 2])
        (indices.map (fun i => i + nqb_op)) (List.range indices.length) with
    | none => none
    | some r2 =>
      let moveaxis_src_first : List ℤ :=
        (List.range indices.length).map (fun i => (i : ℤ))
      let moveaxis_src_second : List ℤ :=
        (List.range indices.length).map (fun i => -((i : ℤ) + 1))
      let moveaxis_dest_first : List ℤ := indices.map (fun i => (i : ℤ))
      let moveaxis_dest_second : List ℤ :=
        indices.reverse.map (fun i => (i : ℤ) + (nqb_op : ℤ))
      match r2.moveaxis (moveaxis_src_first ++ moveaxis_src_second)
          (moveaxis_dest_first ++ moveaxis_dest_second) with
      | none => none
      | some r3 => some (tensor_to_dm r3)

/-- `DensityMatrix::equals` (`density_matrix.rs`): element-wise approximate
equality when the data lengths agree, `false` otherwise. -/
def DensityMatrix.equals (dm : DensityMatrix) (other : DensityMatrix)
    (tol : ℚ) : Bool :=
  if dm.data.length == other.data.length then
    (List.range dm.data.length).all (fun i =>
      complex_approx_eq (dm.data.getD i 0) (other.data.getD i 0) tol)
  else false


/-- C3: starting from the one-qubit state produced by `new(1, ZERO)`,
`evolve_single` with the `X` gate on qubit 0 produces the density matrix
whose flat data has a single 1 at index 3 and 0 at every other index. -/
theorem c3_bit_flip :
    (DensityMatrix.new 1 (some State.ZERO)).evolve_single OneQubitOp.X 0 =
      some ⟨[0, 0, 0, 1], 2, 1⟩ := by
  with_unfolding_all decide


/-- The three-qubit pure state |001⟩ as a statevector. -/
def sv001 : List Cplx := [0, 1, 0, 0, 0, 0, 0, 0]

/-- C1 (code bug): on the three-qubit state |001⟩⟨001|, `evolve` with
`SWAP` on indices `[2, 1]` leaves the single 1 at flat index 17
(`|010⟩⟨001|`) instead of flat index 18 (`|010⟩⟨010|`) as the repository's
own test `test_evolve_swap_ket001_1` expects: the final `moveaxis`
destination block is `indices[i] + 2` (the operator arity) rather than
`indices[i] + nqubits`, so canonical axis order is not restored. -/
theorem c1_moveaxis_wrong_destination :
    ((DensityMatrix.from_statevec sv001).toOption.bind
        (fun dm => dm.evolve TwoQubitsOp.SWAP [2, 1])).map
      (fun d => (d.data.getD 17 0, d.data.getD 18 0)) = some (1, 0) := by
  with_unfolding_all decide

/-- C2 (code bug): `evolve` with the out-of-range index 3 on a three-qubit
matrix returns normally (every engine call succeeds) instead of
terminating abnormally as the claim, the spec, and the repository's test
`test_evolve_out_of_range_target` require. -/
theorem c2_out_of_range_returns_normally :
    ((DensityMatrix.new 3 (some State.ZERO)).evolve TwoQubitsOp.CX
      [0, 3]).isSome = true := by
  with_unfolding_all decide


theorem Cplx.zero_def : (0 : Cplx) = ⟨0, 0⟩ := rfl

theorem Cplx.one_def : (1 : Cplx) = ⟨1, 0⟩ := rfl

theorem Cplx.add_def (a b : Cplx) : a + b = ⟨a.re + b.re, a.im + b.im⟩ := rfl

theorem Cplx.sub_def (a b : Cplx) : a - b = ⟨a.re - b.re, a.im - b.im⟩ := rfl

theorem Cplx.mul_def (a b : Cplx) :
    a * b = ⟨a.re * b.re - a.im * b.im, a.re * b.im + a.im * b.re⟩ := rfl

theorem Cplx.div_def (a b : Cplx) :
    a / b = ⟨(a.re * b.re + a.im * b.im) / b.normSq,
      (a.im * b.re - a.re * b.im) / b.normSq⟩ := rfl

/-- C5: `new(n, ZERO)` has a 1 at flat index 0 and 0 at every other
in-range index, `new(n, PLUS)` has every entry equal to `1 / 2 ^ n`, and
`new(n, none)` is all-zero. -/
theorem c5_new_initial_states (n i : ℕ) (hi : i < 2 ^ n * 2 ^ n) :
    (DensityMatrix.new n (some State.ZERO)).data.getD 0 0 = 1
    ∧ (i ≠ 0 → (DensityMatrix.new n (some State.ZERO)).data.getD i 0 = 0)
    ∧ (DensityMatrix.new n (some State.PLUS)).data.getD i 0 = ⟨1 / 2 ^ n, 0⟩
    ∧ (DensityMatrix.new n none).data.getD i 0 = 0 := by
  have hm : 0 < 2 ^ n * 2 ^ n := by positivity
  have hs : ((2 : ℚ)) ^ n ≠ 0 := by positivity
  have hcast : ((2 ^ n : ℕ) : ℚ) = (2 : ℚ) ^ n := by push_cast; ring
  refine ⟨?_, ?_, ?_, ?_⟩
  · show ((List.replicate (2 ^ n * 2 ^ n) (0 : Cplx)).set 0 1).getD 0 0 = 1
    rw [List.getD_eq_getElem _ _ (by simp [hm])]
    exact List.getElem_set_self (by simp [hm])
  · intro hne
    show ((List.replicate (2 ^ n * 2 ^ n) (0 : Cplx)).set 0 1).getD i 0 = 0
    rw [List.getD_eq_getElem _ _ (by simp [hi])]
    rw [List.getElem_set_ne (by omega) (by simp [hi])]
    exact List.getElem_replicate _ _
  · show ((List.replicate (2 ^ n * 2 ^ n) (1 : Cplx)).map
      (fun c => c / Cplx.ofNat (2 ^ n))).getD i 0 = ⟨1 / 2 ^ n, 0⟩
    rw [List.map_replicate]
    rw [List.getD_eq_getElem _ _ (by simp [hi]), List.getElem_replicate]
    rw [Cplx.div_def]
    simp only [Cplx.one_def, Cplx.normSq, Cplx.ofNat, Cplx.mk.injEq, hcast]
    constructor
    · rw [div_eq_div_iff (by positivity) hs]
      ring
    · field_simp
  · show (List.replicate (2 ^ n * 2 ^ n) (0 : Cplx)).getD i 0 = 0
    rw [List.getD_eq_getElem _ _ (by simp [hi]), List.getElem_replicate]

/-- Witness for `c5_new_initial_states` at `n = 1`, `i = 3`. -/
theorem c5_new_initial_states_witness :
    (DensityMatrix.new 1 (some State.ZERO)).data.getD 3 0 = 0
    ∧ (DensityMatrix.new 1 (some State.PLUS)).data.getD 3 0 = ⟨1 / 2 ^ 1, 0⟩ := by
  have h := c5_new_initial_states 1 3 (by decide)
  exact ⟨h.2.1 (by decide), h.2.2.1⟩

/-- The sum of the diagonal entries `(i, i)` of a density matrix. -/
def diagSum (dm : DensityMatrix) : Cplx :=
  sumC ((List.range dm.size).map (fun i => dm.data.getD (i * dm.size + i) 0))

theorem diagSum_foldl (dm : DensityMatrix) :
    diagSum dm = (List.range dm.size).foldl
      (fun acc i => acc + dm.data.getD (i * dm.size + i) 0) 0 := by
  unfold diagSum sumC
  rw [List.foldl_map]

/-- `trace` succeeds with `Ok(1)` exactly when the diagonal sum is within
squared modulus `TOLERANCE ^ 2` of one, and reports an error otherwise. -/
theorem trace_spec (dm : DensityMatrix) :
    (dm.trace = Except.ok 1 ↔ (diagSum dm - 1).normSq ≤ TOLERANCE * TOLERANCE)
    ∧ (¬ (diagSum dm - 1).normSq ≤ TOLERANCE * TOLERANCE →
        dm.trace = Except.error "The sum over the diagonal elements do not make 1") := by
  unfold DensityMatrix.trace
  rw [← diagSum_foldl]
  unfold complex_approx_eq
  by_cases h : (diagSum dm - 1).normSq ≤ TOLERANCE * TOLERANCE
  · simp [h]
  · simp [h]

/-- C7: `trace()` computes the sum of the diagonal entries and succeeds
(returning the value representing unity, `Ok(1)`) if and only if that sum
is within complex modulus `1e-10` of one, reporting an error otherwise;
as a pure function it leaves the matrix unchanged. -/
theorem c7_trace (dm : DensityMatrix) :
    (dm.trace = Except.ok 1 ↔ (diagSum dm - 1).normSq ≤ TOLERANCE * TOLERANCE)
    ∧ (¬ (diagSum dm - 1).normSq ≤ TOLERANCE * TOLERANCE →
        dm.trace = Except.error "The sum over the diagonal elements do not make 1") :=
  trace_spec dm

/-- Witness for `c7_trace`: the trace of `new(1, ZERO)` succeeds, the
trace of the all-zero matrix `new(1, none)` fails. -/
theorem c7_trace_witness :
    (DensityMatrix.new 1 (some State.ZERO)).trace = Except.ok 1
    ∧ (DensityMatrix.new 1 none).trace =
        Except.error "The sum over the diagonal elements do not make 1" :=
  ⟨(c7_trace _).1.mpr (by with_unfolding_all decide),
   (c7_trace _).2 (by with_unfolding_all decide)⟩

/-- C8: `normalize()` divides every entry by the value returned by
`trace()` (the unity value `1` cast to a float), and is fatal (panics on
the `unwrap`) exactly when the trace check fails. -/
theorem c8_normalize (dm : DensityMatrix) :
    (¬ (diagSum dm - 1).normSq ≤ TOLERANCE * TOLERANCE → dm.normalize = none)
    ∧ ((diagSum dm - 1).normSq ≤ TOLERANCE * TOLERANCE →
        dm.normalize = some ⟨dm.data.map (fun c => c / Cplx.ofInt 1),
          dm.size, dm.nqubits⟩) := by
  obtain ⟨h1, h2⟩ := trace_spec dm
  constructor
  · intro h
    unfold DensityMatrix.normalize
    rw [h2 h]
  · intro h
    unfold DensityMatrix.normalize
    rw [h1.mpr h]

/-- Witness for `c8_normalize`: normalizing the all-zero matrix panics,
normalizing `new(1, ZERO)` divides every entry by the unity trace value. -/
theorem c8_normalize_witness :
    (DensityMatrix.new 1 none).normalize = none
    ∧ (DensityMatrix.new 1 (some State.ZERO)).normalize =
        some ⟨(DensityMatrix.new 1 (some State.ZERO)).data.map
            (fun c => c / Cplx.ofInt 1),
          (DensityMatrix.new 1 (some State.ZERO)).size,
          (DensityMatrix.new 1 (some State.ZERO)).nqubits⟩ :=
  ⟨(c8_normalize _).1 (by with_unfolding_all decide),
   (c8_normalize _).2 (by with_unfolding_all decide)⟩

/-- C10: whenever `normalize()` does not panic (the trace check succeeds),
it leaves every entry exactly unchanged, because the divisor it uses is
the constant unity value returned by `trace()`, not the computed diagonal
sum. -/
theorem c10_normalize_is_identity (dm : DensityMatrix)
    (h : (diagSum dm - 1).normSq ≤ TOLERANCE * TOLERANCE) :
    dm.normalize = some dm := by
  obtain ⟨h1, _⟩ := trace_spec dm
  unfold DensityMatrix.normalize
  rw [h1.mpr h]
  have hdiv : ∀ c : Cplx, c / Cplx.ofInt 1 = c := by
    intro c
    rw [Cplx.div_def]
    simp [Cplx.ofInt, Cplx.normSq]
  simp only [hdiv, List.map_id']

/-- Witness for `c10_normalize_is_identity` at `new(1, ZERO)`. -/
theorem c10_normalize_is_identity_witness :
    (DensityMatrix.new 1 (some State.ZERO)).normalize =
      some (DensityMatrix.new 1 (some State.ZERO)) :=
  c10_normalize_is_identity _ (by with_unfolding_all decide)

/-- C9 counterexample: on `new(1, ZERO)` (size 2, data length 4), the
column index `j = 3` is at least `size`, yet `get(0, 3)` and
`set(0, 3, 1)` both return normally (the flat index `0 * 2 + 3 = 3` is
inside the data), refuting the claim that every out-of-range pair is
fatal. -/
theorem c9_out_of_range_access_succeeds :
    (DensityMatrix.new 1 (some State.ZERO)).size = 2
    ∧ (DensityMatrix.new 1 (some State.ZERO)).get 0 3 = some 0
    ∧ (DensityMatrix.new 1 (some State.ZERO)).set 0 3 1 ≠ none := by
  with_unfolding_all decide

/-- C9 (amended): `get(i, j)` / `set(i, j, value)` access the flat element
at `i * size + j` and are fatal exactly when that flat index falls outside
the data buffer; in particular any pair with `i < size` and `j < size` on
a well-formed matrix is in range (but `j ≥ size` alone need not be
fatal). -/
theorem c9_flat_access (dm : DensityMatrix) (i j : ℕ) (v : Cplx) :
    (dm.get i j = none ↔ dm.data.length ≤ i * dm.size + j)
    ∧ (i * dm.size + j < dm.data.length →
        dm.get i j = some (dm.data.getD (i * dm.size + j) 0))
    ∧ (dm.set i j v = none ↔ dm.data.length ≤ i * dm.size + j)
    ∧ (i * dm.size + j < dm.data.length →
        dm.set i j v = some ⟨dm.data.set (i * dm.size + j) v,
          dm.size, dm.nqubits⟩)
    ∧ (dm.data.length = dm.size * dm.size → i < dm.size → j < dm.size →
        i * dm.size + j < dm.data.length) := by
  refine ⟨?_, ?_, ?_, ?_, ?_⟩
  · unfold DensityMatrix.get
    by_cases h : i * dm.size + j < dm.data.length
    · simp [h]
    · simp [h]
      omega
  · intro h
    unfold DensityMatrix.get
    rw [if_pos h]
  · unfold DensityMatrix.set
    by_cases h : i * dm.size + j < dm.data.length
    · simp [h]
    · simp [h]
      omega
  · intro h
    unfold DensityMatrix.set
    rw [if_pos h]
  · intro hlen hi hj
    rw [hlen]
    calc i * dm.size + j < i * dm.size + dm.size := by omega
    _ = (i + 1) * dm.size := by ring
    _ ≤ dm.size * dm.size := Nat.mul_le_mul_right _ (by omega)

/-- Witness for `c9_flat_access`: in-range access on `new(1, ZERO)`. -/
theorem c9_flat_access_witness :
    (DensityMatrix.new 1 (some State.ZERO)).get 1 1 = some 0 := by
  have h := ((c9_flat_access (DensityMatrix.new 1 (some State.ZERO)) 1 1 0).2.1
    (by with_unfolding_all decide))
  rw [h]
  with_unfolding_all decide


theorem bitwise_int_to_bin_vec_length (m : ℕ) :
    ∀ i, (bitwise_int_to_bin_vec i m).length = m := by
  induction m with
  | zero => intro i; rfl
  | succ m ih =>
    intro i
    show (bitwise_int_to_bin_vec (i / 2) m ++ [i % 2]).length = m + 1
    simp [ih]

/-- The big-endian bit decomposition is a section of the row-major flat
index over an all-2 shape. -/
theorem flatIndex_bin_vec (m : ℕ) :
    ∀ i, i < 2 ^ m →
      flatIndex (List.replicate m 2) (bitwise_int_to_bin_vec i m) = i := by
  induction m with
  | zero =>
    intro i hi
    interval_cases i
    rfl
  | succ m ih =>
    intro i hi
    show flatIndex (List.replicate (m + 1) 2)
      (bitwise_int_to_bin_vec (i / 2) m ++ [i % 2]) = i
    rw [List.replicate_succ']
    unfold flatIndex
    rw [List.zip_append (by simp [bitwise_int_to_bin_vec_length])]
    rw [List.foldl_append]
    have hdiv : i / 2 < 2 ^ m := by
      have h2 : (2 : ℕ) ^ (m + 1) = 2 ^ m * 2 := by ring
      omega
    have := ih (i / 2) hdiv
    unfold flatIndex at this
    rw [this]
    show i / 2 * 2 + i % 2 = i
    omega

theorem foldl_set_range (F : ℕ → Cplx) :
    ∀ (s : ℕ) (off : ℕ) (d : List Cplx), off + s ≤ d.length →
      (List.range s).foldl (fun acc j => acc.set (off + j) (F (off + j))) d
      = d.take off ++ (List.range s).map (fun j => F (off + j)) ++ d.drop (off + s) := by
  intro s
  induction s with
  | zero =>
    intro off d h
    simp [List.take_append_drop]
  | succ s ih =>
    intro off d h
    rw [List.range_succ, List.foldl_append, ih off d (by omega)]
    simp only [List.foldl_cons, List.foldl_nil]
    have hoff : off ≤ d.length := by omega
    have hlen : (d.take off ++ (List.range s).map (fun j => F (off + j))).length
        = off + s := by
      simp [List.length_take, Nat.min_eq_left hoff]
    rw [List.set_append, if_neg (by omega : ¬ off + s
      < (d.take off ++ (List.range s).map (fun j => F (off + j))).length)]
    rw [hlen, Nat.sub_self]
    rw [List.drop_eq_getElem_cons (by omega : off + s < d.length)]
    simp [List.append_assoc, Nat.add_assoc]

theorem foldl_set_range_zero (F : ℕ → Cplx) (s : ℕ) (d : List Cplx)
    (h : s ≤ d.length) :
    (List.range s).foldl (fun acc j => acc.set j (F j)) d
    = (List.range s).map F ++ d.drop s := by
  have := foldl_set_range F s 0 d (by omega)
  simpa using this

theorem map_getD_self (l : List Cplx) :
    (List.range l.length).map (fun i => l.getD i 0) = l := by
  apply List.ext_getElem (by simp)
  intro n h1 h2
  simp only [List.getElem_map, List.getElem_range]
  rw [List.getD_eq_getElem _ _ h2]

theorem foldl_tensor_set_shape (l : List ℕ) (f : ℕ → List ℕ) (g : ℕ → Cplx) :
    ∀ t : Tensor, (l.foldl (fun t i => t.set (f i) (g i)) t).shape = t.shape := by
  induction l with
  | nil => intro t; rfl
  | cons a l ih =>
    intro t
    show (l.foldl (fun t i => t.set (f i) (g i)) (t.set (f a) (g a))).shape = t.shape
    rw [ih]
    rfl

theorem foldl_tensor_set_data (l : List ℕ) (f : ℕ → List ℕ) (g : ℕ → Cplx) :
    ∀ t : Tensor, (l.foldl (fun t i => t.set (f i) (g i)) t).data
      = l.foldl (fun d i => d.set (flatIndex t.shape (f i)) (g i)) t.data := by
  induction l with
  | nil => intro t; rfl
  | cons a l ih =>
    intro t
    show (l.foldl (fun t i => t.set (f i) (g i)) (t.set (f a) (g a))).data
      = l.foldl (fun d i => d.set (flatIndex t.shape (f i)) (g i))
          (t.data.set (flatIndex t.shape (f a)) (g a))
    rw [ih]
    rfl

/-- On a well-formed density matrix, `to_tensor` is a pure reshape: same
flat data, shape `[2; 2 * nqubits]`. -/
theorem to_tensor_eq (dm : DensityMatrix) (h1 : dm.size = 2 ^ dm.nqubits)
    (h2 : dm.data.length = dm.size * dm.size) :
    dm.to_tensor = ⟨dm.data, List.replicate (2 * dm.nqubits) 2⟩ := by
  have hpow : dm.size * dm.size = 2 ^ (2 * dm.nqubits) := by
    rw [h1, ← pow_add]
    ring_nf
  have hsh : dm.to_tensor.shape = List.replicate (2 * dm.nqubits) 2 := by
    unfold DensityMatrix.to_tensor
    rw [foldl_tensor_set_shape]
    rfl
  have hd : dm.to_tensor.data = dm.data := by
    unfold DensityMatrix.to_tensor
    rw [foldl_tensor_set_data]
    show (List.range (dm.size * dm.size)).foldl
      (fun d i => d.set (flatIndex (List.replicate (2 * dm.nqubits) 2)
        (bitwise_int_to_bin_vec i (dm.nqubits * 2))) (dm.data.getD i 0))
      (List.replicate (List.replicate (2 * dm.nqubits) 2).prod 0) = dm.data
    rw [List.foldl_ext _ (fun d i => d.set i (dm.data.getD i 0))]
    · rw [foldl_set_range_zero (fun i => dm.data.getD i 0) (dm.size * dm.size)
        _ (by simp [List.prod_replicate, hpow])]
      rw [List.drop_replicate]
      rw [List.prod_replicate]
      rw [← hpow, Nat.sub_self]
      rw [← h2, map_getD_self]
      simp
    · intro d i hi
      rw [show dm.nqubits * 2 = 2 * dm.nqubits from Nat.mul_comm _ _]
      rw [flatIndex_bin_vec (2 * dm.nqubits) i
        (by rw [← hpow]; exact List.mem_range.mp hi)]
  rw [show dm.to_tensor = Tensor.mk dm.to_tensor.data dm.to_tensor.shape from rfl,
    hsh, hd]

/-- C4: a well-formed density matrix reshapes to a tensor of `2 * nqubits`
axes of dimension 2 and back through `tensor_to_dm` without any change to
data, size, or qubit count. -/
theorem c4_tensor_round_trip (dm : DensityMatrix)
    (h1 : dm.size = 2 ^ dm.nqubits)
    (h2 : dm.data.length = dm.size * dm.size) :
    dm.to_tensor.shape = List.replicate (2 * dm.nqubits) 2
    ∧ tensor_to_dm dm.to_tensor = dm := by
  rw [to_tensor_eq dm h1 h2]
  refine ⟨rfl, ?_⟩
  unfold tensor_to_dm
  have hn : (List.replicate (2 * dm.nqubits) 2).length / 2 = dm.nqubits := by
    rw [List.length_replicate]
    omega
  rw [show dm = DensityMatrix.mk dm.data dm.size dm.nqubits from rfl]
  simp [hn, h1]

/-- Witness for `c4_tensor_round_trip` at `new(1, ZERO)`. -/
theorem c4_tensor_round_trip_witness :
    tensor_to_dm (DensityMatrix.new 1 (some State.ZERO)).to_tensor
      = DensityMatrix.new 1 (some State.ZERO) :=
  (c4_tensor_round_trip _ (by with_unfolding_all decide)
    (by with_unfolding_all decide)).2


theorem isPowerOfTwo_iff (n : ℕ) :
    isPowerOfTwo n = true ↔ ∃ k, n = 2 ^ k := by
  unfold isPowerOfTwo
  simp only [Bool.and_eq_true, bne_iff_ne, ne_eq, decide_eq_true_eq]
  constructor
  · rintro ⟨-, h⟩
    exact ⟨Nat.log 2 n, h⟩
  · rintro ⟨k, rfl⟩
    refine ⟨by positivity, ?_⟩
    rw [Nat.log_pow (by norm_num)]

/-- The nested fill loop of `from_statevec` produces exactly the row-major
outer product `p ↦ sv[p / size] * conj (sv[p % size])`. -/
theorem outerProductData_eq (sv : List Cplx) (size : ℕ) (hpos : 0 < size) :
    outerProductData sv size = (List.range (size * size)).map
      (fun p => sv.getD (p / size) 0 * Cplx.conj (sv.getD (p % size) 0)) := by
  have aux : ∀ k, k ≤ size →
      (List.range k).foldl (fun d i =>
        (List.range size).foldl (fun d j =>
          d.set (i * size + j) (sv.getD i 0 * Cplx.conj (sv.getD j 0))) d)
        (List.replicate (size * size) (0 : Cplx))
      = (List.range (k * size)).map
          (fun p => sv.getD (p / size) 0 * Cplx.conj (sv.getD (p % size) 0))
        ++ (List.replicate (size * size) (0 : Cplx)).drop (k * size) := by
    intro k
    induction k with
    | zero => intro _; simp
    | succ k ih =>
      intro hk
      have hks : k * size ≤ size * size := Nat.mul_le_mul_right _ (by omega)
      have hks1 : (k + 1) * size ≤ size * size := Nat.mul_le_mul_right _ hk
      rw [List.range_succ, List.foldl_append, ih (by omega)]
      simp only [List.foldl_cons, List.foldl_nil]
      rw [List.foldl_ext _ (fun d j => d.set (k * size + j)
        ((fun p => sv.getD (p / size) 0 * Cplx.conj (sv.getD (p % size) 0))
          (k * size + j))) _
        (by
          intro d j hj
          have hj2 : j < size := List.mem_range.mp hj
          have hd2 : (k * size + j) / size = k := by
            rw [Nat.mul_comm k size, Nat.mul_add_div hpos, Nat.div_eq_of_lt hj2]
            omega
          have hm2 : (k * size + j) % size = j := by
            rw [Nat.mul_comm k size, Nat.mul_add_mod]
            exact Nat.mod_eq_of_lt hj2
          show d.set (k * size + j) (sv.getD k 0 * Cplx.conj (sv.getD j 0))
            = d.set (k * size + j) (sv.getD ((k * size + j) / size) 0
                * Cplx.conj (sv.getD ((k * size + j) % size) 0))
          rw [hd2, hm2])]
      have hDlen : ((List.range (k * size)).map
          (fun p => sv.getD (p / size) 0 * Cplx.conj (sv.getD (p % size) 0))
          ++ (List.replicate (size * size) (0 : Cplx)).drop (k * size)).length
          = size * size := by
        simp [List.length_drop]
        omega
      rw [foldl_set_range
        (fun p => sv.getD (p / size) 0 * Cplx.conj (sv.getD (p % size) 0))
        size (k * size) _
        (by
          rw [hDlen]
          calc k * size + size = (k + 1) * size := by ring
          _ ≤ size * size := hks1)]
      set G := fun p => sv.getD (p / size) 0 * Cplx.conj (sv.getD (p % size) 0)
        with hG
      set A := (List.range (k * size)).map G with hA
      set B := (List.replicate (size * size) (0 : Cplx)).drop (k * size) with hB
      have hAlen : A.length = k * size := by rw [hA]; simp
      rw [List.take_left' hAlen]
      rw [show k * size + size = A.length + size from by rw [hAlen]]
      rw [List.drop_append]
      rw [hB, List.drop_drop]
      rw [show (k + 1) * size = k * size + size from by ring]
      rw [List.range_add, List.map_append, List.map_map]
      simp only [hA, List.append_assoc, Function.comp_def]
  have := aux size le_rfl
  unfold outerProductData
  rw [this]
  simp


/-- C6: `from_statevec` returns an error exactly when the amplitude
sequence's length is not a power of two; on success the result has
`nqubits = log2(length)`, `size = length`, and entry `(i, j)` equal to
`amplitudes[i] * conj (amplitudes[j])`. -/
theorem c6_from_statevec (sv : List Cplx) :
    ((∃ e, DensityMatrix.from_statevec sv = Except.error e)
        ↔ ¬ ∃ k, sv.length = 2 ^ k)
    ∧ (∀ dm, DensityMatrix.from_statevec sv = Except.ok dm →
        dm.nqubits = Nat.log 2 sv.length ∧ dm.size = sv.length ∧
        ∀ i j, i < sv.length → j < sv.length →
          dm.data.getD (i * sv.length + j) 0
            = sv.getD i 0 * Cplx.conj (sv.getD j 0)) := by
  unfold DensityMatrix.from_statevec
  by_cases hp : isPowerOfTwo sv.length = true
  · rw [if_pos hp]
    obtain ⟨k, hk⟩ := (isPowerOfTwo_iff sv.length).mp hp
    have hpos : 0 < sv.length := by rw [hk]; positivity
    constructor
    · constructor
      · rintro ⟨e, he⟩
        exact Except.noConfusion he
      · intro hnot
        exact absurd ⟨k, hk⟩ hnot
    · intro dm hdm
      obtain rfl : (⟨outerProductData sv sv.length, sv.length,
          Nat.log 2 sv.length⟩ : DensityMatrix) = dm := by
        exact congrArg (fun x => match x with
          | Except.ok d => d
          | Except.error _ => DensityMatrix.new 0 none) hdm
      refine ⟨rfl, rfl, ?_⟩
      intro i j hi hj
      have hij : i * sv.length + j < sv.length * sv.length := by
        calc i * sv.length + j < i * sv.length + sv.length := by omega
        _ = (i + 1) * sv.length := by ring
        _ ≤ sv.length * sv.length := Nat.mul_le_mul_right _ (by omega)
      show (outerProductData sv sv.length).getD (i * sv.length + j) 0 = _
      rw [outerProductData_eq sv sv.length hpos]
      rw [List.getD_eq_getElem _ _ (by simp [hij])]
      rw [List.getElem_map]
      have hd2 : (i * sv.length + j) / sv.length = i := by
        rw [Nat.mul_comm i sv.length, Nat.mul_add_div hpos, Nat.div_eq_of_lt hj]
        omega
      have hm2 : (i * sv.length + j) % sv.length = j := by
        rw [Nat.mul_comm i sv.length, Nat.mul_add_mod]
        exact Nat.mod_eq_of_lt hj
      rw [List.getElem_range, hd2, hm2]
  · rw [if_neg hp]
    constructor
    · constructor
      · intro _
        intro hex
        exact hp ((isPowerOfTwo_iff sv.length).mpr hex)
      · intro _
        exact ⟨_, rfl⟩
    · intro dm hdm
      exact Except.noConfusion hdm

/-- Witness for `c6_from_statevec`: the statevector `[0, 1]` (the one-qubit
|1⟩ state) succeeds with entry `(1, 1)` equal to `1 * conj 1`, and a
length-3 statevector fails. -/
theorem c6_from_statevec_witness :
    ((⟨outerProductData [0, 1] 2, 2, Nat.log 2 2⟩ : DensityMatrix)).data.getD 3 0
        = (1 : Cplx) * Cplx.conj 1
    ∧ ∃ e, DensityMatrix.from_statevec [0, 0, 1] = Except.error e := by
  constructor
  · have hok : DensityMatrix.from_statevec [0, 1]
        = Except.ok ⟨outerProductData [0, 1] 2, 2, Nat.log 2 2⟩ := by
      with_unfolding_all rfl
    exact ((c6_from_statevec [0, 1]).2 _ hok).2.2 1 1 (by decide) (by decide)
  · exact (c6_from_statevec [0, 0, 1]).1.mpr (by
      rintro ⟨k, hk⟩
      simp at hk
      rcases k with - | - | k
      · omega
      · omega
      · have : 2 ^ (k + 2) ≥ 4 := by
          have := Nat.pow_le_pow_right (show 1 ≤ 2 by omega) (show 2 ≤ k + 2 by omega)
          omega
        omega)

end DmSimu
